import Mathlib

/-!
Verification of the scanning / hashing / deduplication core of the
`biebie-cli` repository (src/scanner.rs, src/hash/sample_hash.rs,
src/uploader.rs) against its natural-language specification.

The Rust code is shallowly embedded: file contents are modelled as a byte
function `Nat → Byte` together with the size reported by `metadata()`;
blake3 is an abstract hash `H : List Byte → String` applied to the exact
byte stream fed to the incremental `Hasher` (`update` appends bytes,
`finalize().to_hex().to_string()` applies `H`); fallible operations return
`Option`.  The sequential denotation of the batch pipeline is a fold; the
concurrent dedup loop of `process_directory_batch_scoped` is additionally
modelled as a small-step interleaving relation (`DedupStep`), because its
`contains_key` / `insert` pair is two separate operations on the shared
`DashMap`.
-/

namespace Biebie

/-- A byte value (the embedding uses `Nat`; only values < 256 occur in real
file contents, nothing below depends on the bound). -/
abbrev Byte := Nat

/-- `LARGE_FILE_THRESHOLD` from scanner.rs: `10 * 1024 * 1024` (10 MiB). -/
def LARGE_FILE_THRESHOLD : Nat := 10 * 1024 * 1024

/-- `VERY_LARGE_FILE_THRESHOLD` from scanner.rs: `100 * 1024 * 1024` (100 MiB). -/
def VERY_LARGE_FILE_THRESHOLD : Nat := 100 * 1024 * 1024

/-- `sample_size` from `compute_sample_hash`: 64 KiB. -/
def sampleSize : Nat := 64 * 1024

/-- Model of a discovered filesystem entry: a `walkdir::DirEntry` together
with the state of the file it denotes.  `pathComponents` are the components
of the entry's path (the last one is the base name).  `metadataSize` is the
result of the `metadata()` call (`none` models a metadata I/O error),
`content` is the readable byte content indexed by offset (`none` models an
open/read/map failure), and `mime` is the content-type string the external
`mime_guess` collaborator returns for this path
(`from_path(path).first_or_octet_stream().essence_str()`). -/
structure DirEntryM where
  pathComponents : List String
  isFile : Bool
  metadataSize : Option Nat
  content : Option (Nat → Byte)
  mime : String

/-- `path.display().to_string()`: the path rendered with `/` separators. -/
def displayPath (e : DirEntryM) : String :=
  String.intercalate "/" e.pathComponents

/-- `path.parent().map(display)`: the parent directory's rendering (the empty
string for a single-component path, matching `Path::parent` on `"a"`). -/
def parentDisplay (e : DirEntryM) : String :=
  String.intercalate "/" e.pathComponents.dropLast

/-- The `FileMeta` record from uploader.rs (sizes as `Nat`). -/
structure FileMeta where
  filename : String
  folder : String
  size : Nat
  mime : String
  hash : String
  filetype : String
deriving DecidableEq, Repr

/-- `should_process_file` from scanner.rs: reject when the base name starts
with `'.'`; reject when metadata is available and reports fewer than 1024
bytes; accept otherwise (in particular, accept when metadata fails). -/
def should_process_file (e : DirEntryM) : Bool :=
  if (match e.pathComponents.getLast? with
      | some name => name.data.head? == some '.'
      | none => false) then false
  else if (match e.metadataSize with
      | some len => decide (len < 1024)
      | none => false) then false
  else true

/-- The bytes of a file `c` at offsets `[off, off + len)`, in order. -/
def readBytes (c : Nat → Byte) (off len : Nat) : List Byte :=
  (List.range len).map (fun i => c (off + i))

/-- A successful `file.read_at(&mut buffer, off)` with a `sampleSize` buffer
on a file of size `size`: it returns the `min sampleSize (size - off)` bytes
starting at `off` (a positioned read at or past the end returns 0 bytes). -/
def readAt (c : Nat → Byte) (size off : Nat) : List Byte :=
  readBytes c off (min sampleSize (size - off))

/-- `u64::to_le_bytes`: the file size as 8 little-endian raw bytes. -/
def u64le (n : Nat) : List Byte :=
  (List.range 8).map (fun i => n / 256 ^ i % 256)

/-- `compute_sample_hash` from scanner.rs / hash/sample_hash.rs (the
`read_at`-based branches: linux, macos, other unix, windows; the
`posix_fadvise` hints touch only the kernel cache, never the hasher).
The hasher state is the byte stream fed so far; `H` is blake3's
`finalize().to_hex().to_string()`. -/
def compute_sample_hash (H : List Byte → String) (c : Nat → Byte)
    (file_size : Nat) : String :=
  let beginning_offset := 0
  let middle_offset := file_size / 2
  let end_offset := file_size - sampleSize
  let fed : List Byte := []
  let fed := fed ++ readAt c file_size beginning_offset
  let fed := if file_size > sampleSize * 2
             then fed ++ readAt c file_size middle_offset else fed
  let fed := if file_size > sampleSize
             then fed ++ readAt c file_size end_offset else fed
  let fed := fed ++ u64le file_size
  H fed

/-- The cursor state of the seek-based fallback branch of
`compute_sample_hash`: the current file position and the bytes fed to the
hasher so far. -/
structure FileCursor where
  pos : Nat
  fed : List Byte

/-- `file.seek(SeekFrom::Start(off))`. -/
def seekStart (off : Nat) (st : FileCursor) : FileCursor :=
  { st with pos := off }

/-- `file.read(&mut buffer)` (buffer of `sampleSize` bytes) followed by
`hasher.update(&buffer[..bytes_read])`: reads from the cursor, advances it. -/
def readUpdate (c : Nat → Byte) (size : Nat) (st : FileCursor) : FileCursor :=
  let n := min sampleSize (size - st.pos)
  { pos := st.pos + n, fed := st.fed ++ readBytes c st.pos n }

/-- The `#[cfg(not(any(unix, windows)))]` fallback branch of
`compute_sample_hash`: explicit `seek` + `read` with a tracked cursor. -/
def compute_sample_hash_seek (H : List Byte → String) (c : Nat → Byte)
    (file_size : Nat) : String :=
  let beginning_offset := 0
  let middle_offset := file_size / 2
  let end_offset := file_size - sampleSize
  let st : FileCursor := ⟨0, []⟩
  let st := readUpdate c file_size (seekStart beginning_offset st)
  let st := if file_size > sampleSize * 2
            then readUpdate c file_size (seekStart middle_offset st) else st
  let st := if file_size > sampleSize
            then readUpdate c file_size (seekStart end_offset st) else st
  H (st.fed ++ u64le file_size)

/-- `compute_hash_mmap` from scanner.rs: maps the whole file read-only and
hashes the full contents in one pass; the mapped view of a file of size
`size` is its bytes at offsets `[0, size)`. -/
def compute_hash_mmap (H : List Byte → String) (c : Nat → Byte)
    (size : Nat) : String :=
  H (readBytes c 0 size)

/-- The small-file branch of `process_single_file_ultra_fast`:
`fs::read(path)` (the full content) followed by `hash(&file_content)`. -/
def direct_read_hash (H : List Byte → String) (c : Nat → Byte)
    (size : Nat) : String :=
  H (readBytes c 0 size)

/-- The size-tier dispatch inlined in `process_single_file_ultra_fast`:
sampled hash above 100 MiB, whole-file mmap hash above 10 MiB, direct full
read otherwise. -/
def compute_file_hash (H : List Byte → String) (c : Nat → Byte)
    (file_size : Nat) : String :=
  if file_size > VERY_LARGE_FILE_THRESHOLD then
    compute_sample_hash H c file_size
  else if file_size > LARGE_FILE_THRESHOLD then
    compute_hash_mmap H c file_size
  else
    direct_read_hash H c file_size

/-- `determine_file_type_fast` from scanner.rs.  The function indexes
`mime_str.as_bytes()[0]` before anything else, which panics on the empty
string; the panic is modelled as `none`.  Otherwise it matches the first
byte and the `"image/"` / `"video/"` prefixes. -/
def determine_file_type_fast (mime_str : String) : Option String :=
  match mime_str.data with
  | [] => none
  | b :: _ =>
    if b = 'i' ∧ "image/".data.isPrefixOf mime_str.data then some "image"
    else if b = 'v' ∧ "video/".data.isPrefixOf mime_str.data then some "video"
    else some "other"

/-- The characters before the first `/` of a character list. -/
def takeUntilSlash (l : List Char) : List Char :=
  match l with
  | [] => []
  | c :: rest => if c = '/' then [] else c :: takeUntilSlash rest

/-- The top-level part of a content-type string (the text before the first
`/`), used to state the classifier contract of §4.4. -/
def topLevelPart (s : String) : String :=
  ⟨takeUntilSlash s.data⟩

/-- `process_single_file_ultra_fast` from scanner.rs: metadata, mime
detection, size-dispatched content hash, classification; any I/O failure
(and the classifier's empty-string panic) yields `none`. -/
def process_single_file_ultra_fast (H : List Byte → String)
    (e : DirEntryM) : Option FileMeta := do
  let file_size ← e.metadataSize
  let mime_str := e.mime
  let file_hash ← (e.content).map (fun c => compute_file_hash H c file_size)
  let file_type ← determine_file_type_fast mime_str
  some { filename := displayPath e
         folder := parentDisplay e
         size := file_size
         mime := mime_str
         hash := file_hash
         filetype := file_type }

/-- `DirBatch` from scanner.rs. -/
structure DirBatch where
  path : String
  files : List DirEntryM
  depth : Nat

/-- Association-list lookup keyed by strings (the reads of the discovery
`HashMap`s and of the `DashMap` registry). -/
def assocFind {β : Type} (m : List (String × β)) (k : String) : Option β :=
  match m with
  | [] => none
  | (k', v) :: rest => if k' = k then some v else assocFind rest k

/-- Association-list insert-or-overwrite (a `HashMap` / `DashMap`
`insert`). -/
def assocInsert {β : Type} (m : List (String × β)) (k : String) (v : β) :
    List (String × β) :=
  match m with
  | [] => [(k, v)]
  | (k', v') :: rest =>
    if k' = k then (k', v) :: rest else (k', v') :: assocInsert rest k v

/-- `dir_file_map.entry(parent).or_insert_with(Vec::new).push(entry)`:
append `e` to the group of key `k`, creating the group if absent. -/
def groupInsert (m : List (String × List DirEntryM)) (k : String)
    (e : DirEntryM) : List (String × List DirEntryM) :=
  match m with
  | [] => [(k, [e])]
  | (k', v) :: rest =>
    if k' = k then (k', v ++ [e]) :: rest
    else (k', v) :: groupInsert rest k e

/-- The loop body of the discovery walk: for a file entry passing the
inclusion filter, push it into `dir_file_map` under its parent path and
record `entry.path().components().count()` in `dir_depths` (a `HashMap`
insert, overwriting any previous depth for that parent). -/
def discStep (acc : List (String × List DirEntryM) × List (String × Nat))
    (e : DirEntryM) : List (String × List DirEntryM) × List (String × Nat) :=
  if e.isFile && should_process_file e then
    let parent_path := parentDisplay e
    let depth := e.pathComponents.length
    (groupInsert acc.1 parent_path e, assocInsert acc.2 parent_path depth)
  else acc

/-- `discover_nested_structure` from scanner.rs: walk entries in order,
keep files passing `should_process_file`, group them by parent-directory
path, record for each group the component count of the *entry's* path
(last write wins), and sort the resulting batches by depth descending. -/
def discover_nested_structure (entries : List DirEntryM) : List DirBatch :=
  let acc := entries.foldl discStep ([], [])
  let batches := acc.1.map (fun pf =>
    { path := pf.1, files := pf.2
      depth := (assocFind acc.2 pf.1).getD 0 : DirBatch })
  batches.mergeSort (fun a b => decide (b.depth ≤ a.depth))

/-- The shared dedup registry plus the shared result map.  `seen` is the
`seen_hashes : DashMap<String, String>` (fingerprint → first filename);
`results` holds the values of the `results : DashMap<String, FileMeta>`
(its keys `"{batch_idx}_{filename}"` are pairwise distinct, so the map is
faithfully a list of the inserted records). -/
structure DedupState where
  seen : List (String × String)
  results : List FileMeta

/-- One iteration of the dedup loop of `process_directory_batch_scoped`:
skip a failed file, skip a fingerprint already in `seen_hashes`, otherwise
insert into `seen_hashes` and store the record. -/
def admitStep (st : DedupState) (r : Option FileMeta) : DedupState :=
  match r with
  | none => st
  | some fm =>
    if (assocFind st.seen fm.hash).isSome then st
    else { seen := assocInsert st.seen fm.hash fm.filename
           results := st.results ++ [fm] }

/-- `process_directory_batch_scoped` from scanner.rs (sequential
denotation): fingerprint every file of the batch, then run the dedup loop
over the outcomes in order. -/
def process_directory_batch_scoped (H : List Byte → String)
    (st : DedupState) (b : DirBatch) : DedupState :=
  let batch_results := b.files.map (process_single_file_ultra_fast H)
  batch_results.foldl admitStep st

/-- The result collection of `process_nested_folders_with_scope`: gather
the stored records and sort them by filename. -/
def collectResults (results : List FileMeta) : List FileMeta :=
  results.mergeSort (fun a b => decide (a.filename ≤ b.filename))

/-- `process_nested_folders_with_scope` from scanner.rs (sequential
denotation: one interleaving of the batch tasks): fold the batches through
the shared registry, then collect and sort. -/
def process_nested_folders_with_scope (H : List Byte → String)
    (batches : List DirBatch) : List FileMeta :=
  let st := batches.foldl (process_directory_batch_scoped H) ⟨[], []⟩
  collectResults st.results

/-- `scan_folder` from scanner.rs, on the list of filesystem entries the
`WalkDir` traversal yields (progress reporting and timing are passive). -/
def scan_folder (H : List Byte → String) (entries : List DirEntryM) :
    List FileMeta :=
  process_nested_folders_with_scope H (discover_nested_structure entries)

/-! ### Basic facts about the window reads -/

theorem readAt_of_le {c : Nat → Byte} {size off : Nat}
    (h : sampleSize ≤ size - off) :
    readAt c size off = readBytes c off sampleSize := by
  unfold readAt
  rw [min_eq_left h]

theorem readBytes_congr {c₁ c₂ : Nat → Byte} {size off len : Nat}
    (hagree : ∀ i, i < size → c₁ i = c₂ i) (hle : off + len ≤ size) :
    readBytes c₁ off len = readBytes c₂ off len := by
  unfold readBytes
  apply List.map_congr_left
  intro i hi
  exact hagree _ (by have := List.mem_range.mp hi; omega)

theorem readAt_congr {c₁ c₂ : Nat → Byte} {size off : Nat}
    (hagree : ∀ i, i < size → c₁ i = c₂ i) (hoff : off ≤ size) :
    readAt c₁ size off = readAt c₂ size off := by
  unfold readAt
  exact readBytes_congr hagree (by omega)

/-! ### C3: the sampled-strategy fingerprint -/

/-- Claim C3: for every file with size above the 100 MiB threshold, the
sampled fingerprint is the hash of the 64 KiB window at offset 0, then the
64 KiB window at offset `size / 2`, then the 64 KiB window at offset
`size - 65536`, followed by the size as 8 little-endian raw bytes.  (For
such sizes the guards `size > 2 * 65536` and `size > 65536` always hold, so
all three windows are present and whole.) -/
theorem sampled_fingerprint_shape (H : List Byte → String) (c : Nat → Byte)
    (file_size : Nat) (hbig : file_size > VERY_LARGE_FILE_THRESHOLD) :
    compute_sample_hash H c file_size =
      H (readBytes c 0 sampleSize ++
         (readBytes c (file_size / 2) sampleSize ++
          (readBytes c (file_size - sampleSize) sampleSize ++
           u64le file_size))) := by
  have hb : 104857600 < file_size := by
    simpa [VERY_LARGE_FILE_THRESHOLD] using hbig
  have hss : sampleSize = 65536 := rfl
  unfold compute_sample_hash
  dsimp only
  rw [if_pos (show file_size > sampleSize * 2 by simp [sampleSize]; omega),
    if_pos (show file_size > sampleSize by simp [sampleSize]; omega)]
  rw [readAt_of_le (show sampleSize ≤ file_size - 0 by simp [sampleSize]; omega),
    readAt_of_le (show sampleSize ≤ file_size - file_size / 2 by
      simp [sampleSize]; omega),
    readAt_of_le (show sampleSize ≤ file_size - (file_size - sampleSize) by
      simp [sampleSize]; omega)]
  simp [List.append_assoc]

/-- Witness for C3 at a concrete input: size `104857601`, the constant-zero
content, and an arbitrary hash function. -/
theorem sampled_fingerprint_shape_witness :
    104857601 > VERY_LARGE_FILE_THRESHOLD ∧
    compute_sample_hash (fun _ => "") (fun _ => 0) 104857601 =
      (fun _ => "") (readBytes (fun _ => 0) 0 sampleSize ++
        (readBytes (fun _ => 0) (104857601 / 2) sampleSize ++
         (readBytes (fun _ => 0) (104857601 - sampleSize) sampleSize ++
          u64le 104857601))) :=
  ⟨by decide, sampled_fingerprint_shape (fun _ => "") (fun _ => 0) 104857601
    (by decide)⟩

/-! ### C4: determinism of the fingerprint -/

/-- Claim C4: the fingerprint is a pure function of the bytes observed at
the read offsets and the file size.  First conjunct: for a fixed size, two
contents that agree on `[0, size)` produce the same fingerprint under the
tier dispatch (hence under whichever tier that size selects, and under
repetition, since the embedding is a function).  Second conjunct: the
positioned-read platform branches and the seek-based fallback branch of the
sampled strategy compute identical fingerprints, so the result is
platform-independent. -/
theorem fingerprint_deterministic (H : List Byte → String)
    (c₁ c₂ : Nat → Byte) (size : Nat)
    (hagree : ∀ i, i < size → c₁ i = c₂ i) :
    compute_file_hash H c₁ size = compute_file_hash H c₂ size ∧
    ∀ (c : Nat → Byte) (sz : Nat),
      compute_sample_hash H c sz = compute_sample_hash_seek H c sz := by
  constructor
  · unfold compute_file_hash
    split
    · unfold compute_sample_hash
      dsimp only
      rw [readAt_congr hagree (Nat.zero_le _),
        readAt_congr hagree (Nat.div_le_self _ _),
        readAt_congr hagree (Nat.sub_le _ _)]
    · split
      · unfold compute_hash_mmap
        rw [readBytes_congr hagree (by omega)]
      · unfold direct_read_hash
        rw [readBytes_congr hagree (by omega)]
  · intro c sz
    unfold compute_sample_hash compute_sample_hash_seek readUpdate seekStart
      readAt
    dsimp only
    split_ifs <;> rfl

/-- Witness for C4 at a concrete input: two (identical) constant contents
of size 3. -/
theorem fingerprint_deterministic_witness :
    compute_file_hash (fun _ => "") (fun _ => 0) 3 =
      compute_file_hash (fun _ => "") (fun _ => 0) 3 ∧
    ∀ (c : Nat → Byte) (sz : Nat),
      compute_sample_hash (fun _ => "") c sz =
        compute_sample_hash_seek (fun _ => "") c sz :=
  fingerprint_deterministic (fun _ => "") (fun _ => 0) (fun _ => 0) 3
    (fun _ _ => rfl)

/-! ### C10: the whole-file tiers agree -/

/-- Claim C10: the memory-mapped strategy and the direct-read strategy hash
the same byte stream (the full content), so they are the same function of
the content; consequently, for every size up to the 100 MiB threshold the
dispatched fingerprint is the hash of the full content, on whichever side
of the 10 MiB boundary the size falls. -/
theorem whole_file_tiers_agree (H : List Byte → String) (c : Nat → Byte)
    (size : Nat) (hsz : size ≤ VERY_LARGE_FILE_THRESHOLD) :
    compute_hash_mmap H c size = direct_read_hash H c size ∧
    compute_file_hash H c size = H (readBytes c 0 size) := by
  refine ⟨rfl, ?_⟩
  unfold compute_file_hash
  rw [if_neg (not_lt.mpr hsz)]
  split
  · rfl
  · rfl

/-- Witness for C10 at a concrete input: size 5. -/
theorem whole_file_tiers_agree_witness :
    compute_hash_mmap (fun _ => "") (fun _ => 0) 5 =
      direct_read_hash (fun _ => "") (fun _ => 0) 5 ∧
    compute_file_hash (fun _ => "") (fun _ => 0) 5 =
      (fun _ => "") (readBytes (fun _ => 0) 0 5) :=
  whole_file_tiers_agree (fun _ => "") (fun _ => 0) 5 (by decide)

/-! ### C8: the classifier -/

theorem isPrefixOf_cons_head {a b : Char} {l₁ l₂ : List Char}
    (h : List.isPrefixOf (a :: l₁) (b :: l₂) = true) : a = b := by
  simp [List.isPrefixOf] at h
  exact h.1

theorem isPrefixOf_cons_ne {a b : Char} {l₁ l₂ : List Char}
    (h : (a == b) = false) :
    List.isPrefixOf (a :: l₁) (b :: l₂) = false := by
  simp [List.isPrefixOf]
  intro hab
  simp [hab] at h

/-- Counterexample for claim C8.  The claim quantifies over every
content-type string, including the empty string, and asserts no error path;
but `determine_file_type_fast` indexes `as_bytes()[0]`, which panics on
`""` (modelled as `none`).  Moreover the string `"image"` has top-level
part `image` yet classifies as `"other"`, because the code tests the
`"image/"` prefix rather than the top-level part. -/
theorem classifier_totality_cex :
    determine_file_type_fast "" = none ∧
    determine_file_type_fast "image" = some "other" ∧
    topLevelPart "image" = "image" :=
  ⟨rfl, rfl, by decide⟩

/-- Claim C8 as amended: for every *non-empty* content-type string, the
classifier terminates without an error path and returns `"image"` exactly
when the string starts with `"image/"`, `"video"` exactly when it starts
with `"video/"`, and `"other"` in every other case. -/
theorem classifier_amended (s : String) (hne : s ≠ "") :
    ∃ cat, determine_file_type_fast s = some cat ∧
      (cat = "image" ↔ "image/".data.isPrefixOf s.data = true) ∧
      (cat = "video" ↔ "video/".data.isPrefixOf s.data = true) ∧
      (cat = "other" ↔ ("image/".data.isPrefixOf s.data = false ∧
                        "video/".data.isPrefixOf s.data = false)) := by
  cases hs : s.data with
  | nil =>
    exact absurd (String.ext (hs.trans rfl)) hne
  | cons b rest =>
    simp only [determine_file_type_fast, hs]
    split_ifs with h1 h2
    · obtain ⟨hb, hp⟩ := h1
      subst hb
      refine ⟨"image", rfl, by simp [hp], ?_, ?_⟩
      · constructor
        · intro h
          exact absurd h (by decide)
        · intro h
          exact absurd (isPrefixOf_cons_head h) (by decide)
      · constructor
        · intro h
          exact absurd h (by decide)
        · intro h
          rw [hp] at h
          exact absurd h.1 (by decide)
    · obtain ⟨hb, hp⟩ := h2
      subst hb
      refine ⟨"video", rfl, ?_, by simp [hp], ?_⟩
      · constructor
        · intro h
          exact absurd h (by decide)
        · intro h
          exact absurd (isPrefixOf_cons_head h) (by decide)
      · constructor
        · intro h
          exact absurd h (by decide)
        · intro h
          rw [hp] at h
          exact absurd h.2 (by decide)
    · have himgf : List.isPrefixOf "image/".data (b :: rest) = false := by
        cases hip : List.isPrefixOf "image/".data (b :: rest)
        · rfl
        · exact absurd ⟨(isPrefixOf_cons_head hip).symm, hip⟩ h1
      have hvidf : List.isPrefixOf "video/".data (b :: rest) = false := by
        cases hvp : List.isPrefixOf "video/".data (b :: rest)
        · rfl
        · exact absurd ⟨(isPrefixOf_cons_head hvp).symm, hvp⟩ h2
      refine ⟨"other", rfl, ?_, ?_, by simp [himgf, hvidf]⟩
      · rw [himgf]
        constructor
        · intro h
          exact absurd h (by decide)
        · intro h
          exact absurd h (by decide)
      · rw [hvidf]
        constructor
        · intro h
          exact absurd h (by decide)
        · intro h
          exact absurd h (by decide)

/-- Witness for the amended C8 at the concrete input `"image/png"`. -/
theorem classifier_amended_witness :
    ∃ cat, determine_file_type_fast "image/png" = some cat ∧
      (cat = "image" ↔ "image/".data.isPrefixOf "image/png".data = true) ∧
      (cat = "video" ↔ "video/".data.isPrefixOf "image/png".data = true) ∧
      (cat = "other" ↔ ("image/".data.isPrefixOf "image/png".data = false ∧
                        "video/".data.isPrefixOf "image/png".data = false)) :=
  classifier_amended "image/png" (by decide)


/-! ### Association-list and grouping lemmas -/

theorem assocFind_assocInsert_self {β : Type} (m : List (String × β))
    (k : String) (v : β) : assocFind (assocInsert m k v) k = some v := by
  induction m with
  | nil => simp [assocInsert, assocFind]
  | cons kv rest ih =>
    obtain ⟨k', v'⟩ := kv
    by_cases h : k' = k
    · simp [assocInsert, assocFind, h]
    · simp [assocInsert, assocFind, h, ih]

theorem assocFind_assocInsert_ne {β : Type} (m : List (String × β))
    {k k' : String} (v : β) (h : k ≠ k') :
    assocFind (assocInsert m k v) k' = assocFind m k' := by
  induction m with
  | nil => simp [assocInsert, assocFind, h]
  | cons kv rest ih =>
    obtain ⟨k'', v''⟩ := kv
    by_cases h2 : k'' = k
    · subst h2
      simp [assocInsert, assocFind, h]
    · simp [assocInsert, assocFind, h2, ih]

theorem mem_keys_groupInsert (m : List (String × List DirEntryM))
    (k : String) (e : DirEntryM) {x : String}
    (hx : x ∈ (groupInsert m k e).map Prod.fst) :
    x ∈ m.map Prod.fst ∨ x = k := by
  induction m with
  | nil =>
    simp [groupInsert] at hx
    exact Or.inr hx
  | cons kv rest ih =>
    obtain ⟨k', v⟩ := kv
    by_cases h : k' = k
    · simp [groupInsert, h] at hx
      rcases hx with hx | hx
      · exact Or.inl (by simp [hx, h])
      · exact Or.inl (by simp [hx])
    · simp [groupInsert, h] at hx
      rcases hx with hx | hx
      · exact Or.inl (by simp [hx])
      · rcases ih (by simpa using hx) with h2 | h2
        · exact Or.inl (by simp [h2])
        · exact Or.inr h2

theorem nodup_keys_groupInsert (m : List (String × List DirEntryM))
    (k : String) (e : DirEntryM) (hnd : (m.map Prod.fst).Nodup) :
    ((groupInsert m k e).map Prod.fst).Nodup := by
  induction m with
  | nil => simp [groupInsert]
  | cons kv rest ih =>
    obtain ⟨k', v⟩ := kv
    simp only [List.map_cons, List.nodup_cons] at hnd
    by_cases h : k' = k
    · simpa [groupInsert, h] using hnd
    · simp only [groupInsert, if_neg h, List.map_cons]
      refine List.nodup_cons.mpr ⟨?_, ih hnd.2⟩
      intro hmem
      rcases mem_keys_groupInsert rest k e hmem with h2 | h2
      · exact hnd.1 h2
      · exact h h2

theorem mem_groupInsert_cases (m : List (String × List DirEntryM))
    (k : String) (e : DirEntryM) {p : String × List DirEntryM}
    (hnd : (m.map Prod.fst).Nodup) (hp : p ∈ groupInsert m k e) :
    (p.1 = k ∧ e ∈ p.2) ∨ (p.1 ≠ k ∧ p ∈ m) := by
  induction m with
  | nil =>
    simp [groupInsert] at hp
    subst hp
    exact Or.inl ⟨rfl, by simp⟩
  | cons kv rest ih =>
    obtain ⟨k', v⟩ := kv
    simp only [List.map_cons, List.nodup_cons] at hnd
    by_cases h : k' = k
    · subst h
      simp only [groupInsert, if_pos rfl] at hp
      rcases List.mem_cons.mp hp with hp | hp
      · subst hp
        exact Or.inl ⟨rfl, by simp⟩
      · refine Or.inr ⟨?_, List.mem_cons_of_mem _ hp⟩
        intro hk
        exact hnd.1 (hk ▸ List.mem_map_of_mem Prod.fst hp)
    · simp only [groupInsert, if_neg h] at hp
      rcases List.mem_cons.mp hp with hp | hp
      · subst hp
        exact Or.inr ⟨h, List.mem_cons_self _ _⟩
      · rcases ih hnd.2 hp with h2 | h2
        · exact Or.inl h2
        · exact Or.inr ⟨h2.1, List.mem_cons_of_mem _ h2.2⟩

/-! ### The discovery invariant for C6 -/

/-- Invariant of the discovery fold: the group keys are distinct, and every
group's recorded depth is the full-path component count of one of the
group's member files. -/
def DiscInv (acc : List (String × List DirEntryM) × List (String × Nat)) :
    Prop :=
  (acc.1.map Prod.fst).Nodup ∧
  ∀ p ∈ acc.1, ∃ f ∈ p.2,
    assocFind acc.2 p.1 = some f.pathComponents.length

theorem discStep_inv (acc) (e : DirEntryM) (hinv : DiscInv acc) :
    DiscInv (discStep acc e) := by
  unfold discStep
  split
  · obtain ⟨hnd, hdep⟩ := hinv
    refine ⟨nodup_keys_groupInsert _ _ _ hnd, ?_⟩
    intro p hp
    rcases mem_groupInsert_cases _ _ _ hnd hp with ⟨hk, he⟩ | ⟨hk, hmem⟩
    · refine ⟨e, he, ?_⟩
      rw [hk, assocFind_assocInsert_self]
    · obtain ⟨f, hf, hfind⟩ := hdep p hmem
      exact ⟨f, hf, by rw [assocFind_assocInsert_ne _ _ (fun h => hk h.symm), hfind]⟩
  · exact hinv

theorem discFold_inv (l : List DirEntryM) :
    ∀ acc, DiscInv acc → DiscInv (l.foldl discStep acc) := by
  induction l with
  | nil => exact fun acc h => h
  | cons e rest ih => exact fun acc h => ih _ (discStep_inv acc e h)

/-- The single-file input exhibiting the C6 depth counterexample. -/
def cexEntryC6 : DirEntryM :=
  { pathComponents := ["a", "b", "c.txt"], isFile := true,
    metadataSize := some 2048, content := none, mime := "text/plain" }

/-- Counterexample for claim C6.  For the single surviving file
`a/b/c.txt`, the produced batch's depth is 3 — the component count of the
*entry's own* path (`entry.path().components().count()`) — not 2, the
component count of the batch's parent-directory path `a/b` that the claim
asserts. -/
theorem discovery_depth_cex :
    ∃ b ∈ discover_nested_structure [cexEntryC6],
      ∃ f ∈ b.files, b.depth ≠ f.pathComponents.dropLast.length := by
  have hd : discover_nested_structure [cexEntryC6] =
      [{ path := parentDisplay cexEntryC6, files := [cexEntryC6], depth := 3 }] := by
    simp [discover_nested_structure, discStep, groupInsert, assocInsert,
      assocFind, should_process_file, cexEntryC6, parentDisplay]
  rw [hd]
  refine ⟨{ path := parentDisplay cexEntryC6, files := [cexEntryC6], depth := 3 },
    by simp, cexEntryC6, by simp, by simp [cexEntryC6]⟩

/-- Claim C6 as amended: every batch's depth equals the component count of
the full path of one of its member files (for well-formed paths, one more
than the parent directory's component count), and the batch sequence is
sorted by depth, descending. -/
theorem discovery_structure_amended (entries : List DirEntryM) :
    (∀ b ∈ discover_nested_structure entries,
      ∃ f ∈ b.files, b.depth = f.pathComponents.length) ∧
    List.Sorted (fun a b : DirBatch => b.depth ≤ a.depth)
      (discover_nested_structure entries) := by
  constructor
  · intro b hb
    unfold discover_nested_structure at hb
    rw [List.mem_mergeSort] at hb
    obtain ⟨p, hp, hpb⟩ := List.mem_map.mp hb
    obtain ⟨hnd, hdep⟩ := discFold_inv entries ([], []) ⟨by simp, by simp⟩
    obtain ⟨f, hf, hfind⟩ := hdep p hp
    refine ⟨f, ?_, ?_⟩
    · rw [← hpb]
      exact hf
    · rw [← hpb]
      simp [hfind]
  · have hs := @List.sorted_mergeSort DirBatch
      (fun a b : DirBatch => decide (b.depth ≤ a.depth))
      (fun a b c h1 h2 => by
        simp only [decide_eq_true_eq] at *
        omega)
      (fun a b => by
        simp only [Bool.or_eq_true, decide_eq_true_eq]
        omega)
      ((entries.foldl discStep ([], [])).1.map (fun pf =>
        { path := pf.1, files := pf.2,
          depth := (assocFind (entries.foldl discStep ([], [])).2 pf.1).getD 0 :
          DirBatch }))
    unfold discover_nested_structure
    exact hs.imp (by simp)


/-! ### Pipeline lemmas: where inventory records come from -/

theorem process_single_filename (H : List Byte → String) {e : DirEntryM}
    {fm : FileMeta} (h : process_single_file_ultra_fast H e = some fm) :
    fm.filename = displayPath e := by
  unfold process_single_file_ultra_fast at h
  cases hm : e.metadataSize <;> rw [hm] at h
  · exact Option.noConfusion h
  · cases hc : e.content <;> rw [hc] at h
    · exact Option.noConfusion h
    · simp at h
      cases hf : determine_file_type_fast e.mime <;> rw [hf] at h
      · exact Option.noConfusion h
      · have h2 := Option.some.inj h
        rw [← h2]

theorem admitFold_filenames (rs : List (Option FileMeta)) :
    ∀ st : DedupState,
      List.Sublist (((rs.foldl admitStep st).results).map FileMeta.filename)
        ((st.results.map FileMeta.filename) ++
          ((rs.filterMap id).map FileMeta.filename)) := by
  induction rs with
  | nil =>
    intro st
    simp
  | cons r rest ih =>
    intro st
    cases r with
    | none => simpa [admitStep] using ih st
    | some fm =>
      simp only [List.foldl_cons, List.filterMap_cons, id, List.map_cons]
      by_cases hc : (assocFind st.seen fm.hash).isSome
      · rw [show admitStep st (some fm) = st by simp [admitStep, hc]]
        refine (ih st).trans ?_
        exact List.Sublist.append_left (List.sublist_cons_self _ _) _
      · rw [show admitStep st (some fm) =
            ⟨assocInsert st.seen fm.hash fm.filename, st.results ++ [fm]⟩ by
          simp [admitStep, hc]]
        have h1 := ih ⟨assocInsert st.seen fm.hash fm.filename,
          st.results ++ [fm]⟩
        simp only [List.map_append, List.map_cons, List.map_nil] at h1
        simpa [List.append_assoc] using h1

theorem batchesFold_filenames (H : List Byte → String) (bs : List DirBatch) :
    ∀ st : DedupState,
      List.Sublist
        (((bs.foldl (process_directory_batch_scoped H) st).results).map
          FileMeta.filename)
        ((st.results.map FileMeta.filename) ++
          (bs.flatMap (fun b =>
            (b.files.filterMap (process_single_file_ultra_fast H)).map
              FileMeta.filename))) := by
  induction bs with
  | nil =>
    intro st
    simp
  | cons b rest ih =>
    intro st
    simp only [List.foldl_cons, List.flatMap_cons]
    have h1 := admitFold_filenames
      (b.files.map (process_single_file_ultra_fast H)) st
    rw [List.filterMap_map, Function.id_comp] at h1
    have h2 := ih (process_directory_batch_scoped H st b)
    refine h2.trans ?_
    have h3 := h1.append_right (rest.flatMap (fun b =>
      (b.files.filterMap (process_single_file_ultra_fast H)).map
        FileMeta.filename))
    unfold process_directory_batch_scoped
    simpa [List.append_assoc] using h3

theorem mem_admitFold (rs : List (Option FileMeta)) :
    ∀ (st : DedupState) (fm : FileMeta),
      fm ∈ (rs.foldl admitStep st).results → fm ∈ st.results ∨ some fm ∈ rs := by
  induction rs with
  | nil =>
    intro st fm h
    exact Or.inl h
  | cons r rest ih =>
    intro st fm h
    rcases ih _ _ h with h2 | h2
    · cases r with
      | none => exact Or.inl (by simpa [admitStep] using h2)
      | some g =>
        by_cases hc : (assocFind st.seen g.hash).isSome
        · exact Or.inl (by simpa [admitStep, hc] using h2)
        · have h3 : fm ∈ st.results ++ [g] := by simpa [admitStep, hc] using h2
          rcases List.mem_append.mp h3 with h4 | h4
          · exact Or.inl h4
          · simp at h4
            subst h4
            exact Or.inr (by simp)
    · exact Or.inr (List.mem_cons_of_mem _ h2)

theorem mem_batchesFold (H : List Byte → String) (bs : List DirBatch) :
    ∀ (st : DedupState) (fm : FileMeta),
      fm ∈ (bs.foldl (process_directory_batch_scoped H) st).results →
      fm ∈ st.results ∨ ∃ b ∈ bs, ∃ e ∈ b.files,
        process_single_file_ultra_fast H e = some fm := by
  induction bs with
  | nil =>
    intro st fm h
    exact Or.inl h
  | cons b rest ih =>
    intro st fm h
    rcases ih _ _ h with h2 | h2
    · rcases mem_admitFold _ _ _ h2 with h3 | h3
      · exact Or.inl h3
      · obtain ⟨e, he, hpe⟩ := List.mem_map.mp h3
        exact Or.inr ⟨b, by simp, e, he, hpe⟩
    · obtain ⟨b2, hb2, hrest⟩ := h2
      exact Or.inr ⟨b2, List.mem_cons_of_mem _ hb2, hrest⟩

theorem groupInsert_flatMap (m : List (String × List DirEntryM)) (k : String)
    (e : DirEntryM) :
    List.Perm ((groupInsert m k e).flatMap Prod.snd)
      (m.flatMap Prod.snd ++ [e]) := by
  induction m with
  | nil => simp [groupInsert]
  | cons kv rest ih =>
    obtain ⟨k2, v⟩ := kv
    by_cases h : k2 = k
    · simp only [groupInsert, if_pos h, List.flatMap_cons]
      rw [List.append_assoc, List.append_assoc]
      exact List.Perm.append_left v List.perm_append_comm
    · simp only [groupInsert, if_neg h, List.flatMap_cons]
      rw [List.append_assoc]
      exact List.Perm.append_left v ih

theorem discFold_flatMap (l : List DirEntryM) :
    ∀ acc, List.Perm (((l.foldl discStep acc).1).flatMap Prod.snd)
      (acc.1.flatMap Prod.snd ++
        l.filter (fun e => e.isFile && should_process_file e)) := by
  induction l with
  | nil =>
    intro acc
    simp
  | cons e rest ih =>
    intro acc
    by_cases h : (e.isFile && should_process_file e) = true
    · simp only [List.foldl_cons, List.filter_cons, h, if_pos]
      refine (ih (discStep acc e)).trans ?_
      have h2 : List.Perm ((discStep acc e).1.flatMap Prod.snd)
          (acc.1.flatMap Prod.snd ++ [e]) := by
        unfold discStep
        rw [if_pos h]
        exact groupInsert_flatMap _ _ _
      refine (h2.append_right _).trans ?_
      rw [List.append_assoc, List.singleton_append]
    · simp only [List.foldl_cons, List.filter_cons, h, if_neg, Bool.false_eq_true]
      have h2 : discStep acc e = acc := by
        unfold discStep
        rw [if_neg h]
      rw [h2]
      exact ih acc

theorem discover_files_perm (entries : List DirEntryM) :
    List.Perm ((discover_nested_structure entries).flatMap DirBatch.files)
      (entries.filter (fun e => e.isFile && should_process_file e)) := by
  unfold discover_nested_structure
  dsimp only
  refine (List.Perm.flatMap_right _ (List.mergeSort_perm _ _)).trans ?_
  rw [List.flatMap_map]
  have h := discFold_flatMap entries ([], [])
  simpa [Function.comp] using h

theorem mem_scan_origin (H : List Byte → String) {entries : List DirEntryM}
    {fm : FileMeta} (h : fm ∈ scan_folder H entries) :
    ∃ e ∈ entries, (e.isFile && should_process_file e) = true ∧
      process_single_file_ultra_fast H e = some fm := by
  unfold scan_folder process_nested_folders_with_scope collectResults at h
  dsimp only at h
  rw [List.mem_mergeSort] at h
  rcases mem_batchesFold H _ _ _ h with h2 | h2
  · simp at h2
  · obtain ⟨b, hb, e, he, hpe⟩ := h2
    have hef : e ∈ (discover_nested_structure entries).flatMap DirBatch.files :=
      List.mem_flatMap.mpr ⟨b, hb, he⟩
    have h3 := (discover_files_perm entries).mem_iff.mp hef
    rw [List.mem_filter] at h3
    exact ⟨e, h3.1, h3.2, hpe⟩


/-! ### C5: filter correctness -/

theorem should_process_file_eq_false {e : DirEntryM}
    (hbad : (∃ n, e.metadataSize = some n ∧ n < 1024) ∨
            (∃ name, e.pathComponents.getLast? = some name ∧
              name.data.head? = some '.')) :
    should_process_file e = false := by
  unfold should_process_file
  rcases hbad with ⟨n, hn, hlt⟩ | ⟨name, hname, hdot⟩
  · split_ifs with h1 h2
    · rfl
    · rfl
    · exfalso
      rw [hn] at h2
      simp at h2
      omega
  · split_ifs with h1 h2
    · rfl
    · exfalso
      rw [hname] at h1
      simp [hdot] at h1
    · exfalso
      rw [hname] at h1
      simp [hdot] at h1

/-- Claim C5: a file whose byte length is strictly below 1024, or whose
base name begins with the hidden-file marker `'.'`, never appears in the
output inventory of `scan_folder` (paths are assumed distinct across the
walked entries, as they are for a filesystem traversal). -/
theorem filter_correctness (H : List Byte → String) (entries : List DirEntryM)
    (e : DirEntryM) (hnd : (entries.map displayPath).Nodup) (he : e ∈ entries)
    (hbad : (∃ n, e.metadataSize = some n ∧ n < 1024) ∨
            (∃ name, e.pathComponents.getLast? = some name ∧
              name.data.head? = some '.')) :
    displayPath e ∉ (scan_folder H entries).map FileMeta.filename := by
  intro hmem
  obtain ⟨fm, hfm, hname⟩ := List.mem_map.mp hmem
  obtain ⟨f, hf, hpass, hpf⟩ := mem_scan_origin H hfm
  have hfn : fm.filename = displayPath f := process_single_filename H hpf
  have hfe : f = e :=
    List.inj_on_of_nodup_map hnd hf he (by rw [← hfn, hname])
  subst hfe
  have hfalse : should_process_file f = false := should_process_file_eq_false hbad
  rw [Bool.and_eq_true] at hpass
  rw [hpass.2] at hfalse
  exact Bool.noConfusion hfalse

/-- The hidden-name entry used to witness C5. -/
def cexEntryC5 : DirEntryM :=
  { pathComponents := ["a", ".hidden.bin"], isFile := true,
    metadataSize := some 2048, content := none, mime := "text/plain" }

/-- Witness for C5 at a concrete input: a hidden file `a/.hidden.bin`. -/
theorem filter_correctness_witness :
    displayPath cexEntryC5 ∉
      (scan_folder (fun _ => "") [cexEntryC5]).map FileMeta.filename :=
  filter_correctness (fun _ => "") [cexEntryC5] cexEntryC5 (by simp)
    (by simp) (Or.inr ⟨".hidden.bin", rfl, rfl⟩)


/-! ### C7: inventory ordering -/

theorem filterMap_proc_filenames (H : List Byte → String)
    (l : List DirEntryM) :
    (l.filterMap (process_single_file_ultra_fast H)).map FileMeta.filename =
      (l.filter (fun e => (process_single_file_ultra_fast H e).isSome)).map
        displayPath := by
  induction l with
  | nil => rfl
  | cons e rest ih =>
    cases hp : process_single_file_ultra_fast H e with
    | none => simp [List.filterMap_cons, List.filter_cons, hp, ih]
    | some fm => simp [List.filterMap_cons, List.filter_cons, hp, ih,
        process_single_filename H hp]

theorem flatMap_sublist_flatMap {α β : Type} {f g : α → List β}
    (l : List α) (h : ∀ a ∈ l, List.Sublist (f a) (g a)) :
    List.Sublist (l.flatMap f) (l.flatMap g) := by
  induction l with
  | nil => simp
  | cons a rest ih =>
    simp only [List.flatMap_cons]
    exact List.Sublist.append (h a (by simp))
      (ih (fun a ha => h a (List.mem_cons_of_mem _ ha)))

theorem scan_filenames_nodup (H : List Byte → String)
    (entries : List DirEntryM) (hnd : (entries.map displayPath).Nodup) :
    ((scan_folder H entries).map FileMeta.filename).Nodup := by
  have hperm : List.Perm ((scan_folder H entries).map FileMeta.filename)
      ((((discover_nested_structure entries).foldl
        (process_directory_batch_scoped H) ⟨[], []⟩).results).map
          FileMeta.filename) := by
    unfold scan_folder process_nested_folders_with_scope collectResults
    dsimp only
    exact (List.mergeSort_perm _ _).map _
  rw [hperm.nodup_iff]
  have h1 := batchesFold_filenames H (discover_nested_structure entries)
    ⟨[], []⟩
  simp only [List.map_nil, List.nil_append] at h1
  simp only [filterMap_proc_filenames] at h1
  have h2 : List.Sublist
      ((discover_nested_structure entries).flatMap (fun b =>
        (b.files.filter (fun e =>
          (process_single_file_ultra_fast H e).isSome)).map displayPath))
      ((discover_nested_structure entries).flatMap (fun b =>
        b.files.map displayPath)) :=
    flatMap_sublist_flatMap _
      (fun b _ => (List.filter_sublist _).map displayPath)
  have h3 : (discover_nested_structure entries).flatMap
      (fun b => b.files.map displayPath) =
      ((discover_nested_structure entries).flatMap DirBatch.files).map
        displayPath := by
    rw [List.map_flatMap]
  have h4 : ((entries.filter
      (fun e => e.isFile && should_process_file e)).map displayPath).Nodup :=
    ((List.filter_sublist entries).map displayPath).nodup hnd
  have h5 : (((discover_nested_structure entries).flatMap
      DirBatch.files).map displayPath).Nodup :=
    ((discover_files_perm entries).map displayPath).nodup_iff.mpr h4
  exact (h1.trans (h3 ▸ h2)).nodup h5

/-- Claim C7: the final inventory returned by `scan_folder` is sorted by
path in strictly ascending order — in particular no two records share a
path (paths of the walked entries are assumed distinct, as they are for a
filesystem traversal). -/
theorem inventory_sorted (H : List Byte → String) (entries : List DirEntryM)
    (hnd : (entries.map displayPath).Nodup) :
    List.Sorted (· < ·) ((scan_folder H entries).map FileMeta.filename) := by
  have hpair : ((scan_folder H entries).map FileMeta.filename).Pairwise
      (· ≤ ·) := by
    rw [List.pairwise_map]
    have hs := @List.sorted_mergeSort FileMeta
      (fun a b : FileMeta => decide (a.filename ≤ b.filename))
      (fun a b c h1 h2 => by
        simp only [decide_eq_true_eq] at h1 h2 ⊢
        exact le_trans h1 h2)
      (fun a b => by
        simp only [Bool.or_eq_true, decide_eq_true_eq]
        exact le_total _ _)
      (((discover_nested_structure entries).foldl
        (process_directory_batch_scoped H) ⟨[], []⟩).results)
    unfold scan_folder process_nested_folders_with_scope collectResults
    dsimp only
    exact hs.imp (fun h => by simpa using h)
  have hnodup := scan_filenames_nodup H entries hnd
  exact (hpair.and hnodup).imp (fun h => lt_of_le_of_ne h.1 h.2)

/-- Witness for C7 at a concrete input: the empty entry list. -/
theorem inventory_sorted_witness :
    List.Sorted (· < ·)
      ((scan_folder (fun _ => "") []).map FileMeta.filename) :=
  inventory_sorted (fun _ => "") [] (by simp)


/-! ### C9: per-file error containment -/

theorem admitFold_skip_failing (H : List Byte → String)
    (files : List DirEntryM) :
    ∀ st : DedupState,
      ((files.filter (fun f =>
        (process_single_file_ultra_fast H f).isSome)).map
          (process_single_file_ultra_fast H)).foldl admitStep st =
        (files.map (process_single_file_ultra_fast H)).foldl admitStep st := by
  induction files with
  | nil =>
    intro st
    rfl
  | cons f rest ih =>
    intro st
    cases hp : process_single_file_ultra_fast H f with
    | none =>
      have hR : ((f :: rest).map (process_single_file_ultra_fast H)).foldl
          admitStep st =
          (rest.map (process_single_file_ultra_fast H)).foldl admitStep st := by
        simp [hp, admitStep]
      rw [hR, ← ih st]
      simp [List.filter_cons, hp]
    | some fm =>
      have hL : (f :: rest).filter (fun f =>
          (process_single_file_ultra_fast H f).isSome) =
          f :: rest.filter (fun f =>
            (process_single_file_ultra_fast H f).isSome) := by
        simp [List.filter_cons, hp]
      rw [hL]
      simp only [List.map_cons, List.foldl_cons]
      exact ih _

theorem batchesFold_skip_failing (H : List Byte → String)
    (bs : List DirBatch) :
    ∀ st, (bs.map (fun b =>
      { b with
        files := b.files.filter
          (fun f => (process_single_file_ultra_fast H f).isSome) })).foldl
            (process_directory_batch_scoped H) st =
        bs.foldl (process_directory_batch_scoped H) st := by
  induction bs with
  | nil =>
    intro st
    rfl
  | cons b rest ih =>
    intro st
    simp only [List.map_cons, List.foldl_cons]
    have hb : process_directory_batch_scoped H st
        { b with
          files := b.files.filter
            (fun f => (process_single_file_ultra_fast H f).isSome) } =
        process_directory_batch_scoped H st b := by
      unfold process_directory_batch_scoped
      dsimp only
      exact admitFold_skip_failing H b.files st
    rw [hb]
    exact ih _

/-- Claim C9: any metadata or open/read/map failure on a candidate makes
per-file processing yield `none` (the entry is dropped, never an abort),
and dropping the failing entries from the batches leaves the output of the
batch pipeline unchanged: the run continues and returns the records of all
other successfully processed files. -/
theorem error_containment (H : List Byte → String) (e : DirEntryM)
    (batches : List DirBatch)
    (hfail : e.metadataSize = none ∨ e.content = none) :
    process_single_file_ultra_fast H e = none ∧
    process_nested_folders_with_scope H (batches.map (fun b =>
      { b with
        files := b.files.filter
          (fun f => (process_single_file_ultra_fast H f).isSome) })) =
      process_nested_folders_with_scope H batches := by
  constructor
  · rcases hfail with h | h
    · unfold process_single_file_ultra_fast
      rw [h]
      rfl
    · unfold process_single_file_ultra_fast
      cases hm : e.metadataSize
      · rfl
      · rw [h]
        rfl
  · unfold process_nested_folders_with_scope
    rw [batchesFold_skip_failing]

/-- The failing entry used to witness C9 (its metadata call fails). -/
def cexEntryC9 : DirEntryM :=
  { pathComponents := ["a", "broken.bin"], isFile := true,
    metadataSize := none, content := none, mime := "text/plain" }

/-- Witness for C9 at a concrete input: an entry whose metadata call
fails, and the empty batch list. -/
theorem error_containment_witness :
    process_single_file_ultra_fast (fun _ => "") cexEntryC9 = none ∧
    process_nested_folders_with_scope (fun _ => "") (([] : List DirBatch).map (fun b =>
      { b with
        files := b.files.filter
          (fun f => (process_single_file_ultra_fast (fun _ => "") f).isSome) })) =
      process_nested_folders_with_scope (fun _ => "") [] :=
  error_containment (fun _ => "") cexEntryC9 [] (Or.inl rfl)


/-! ### The concurrent dedup loop (C1, C2)

The dedup loop of `process_directory_batch_scoped` runs concurrently in
every batch task spawned by `rayon::scope`, all sharing the single
`seen_hashes : DashMap`.  Its duplicate check (`contains_key`) and its
registration (`insert`) are two separate operations on the shared map, so
the loop is modelled as a small-step interleaving relation. -/

/-- A worker running the dedup loop of `process_directory_batch_scoped` on
its batch's results: `pending` are the records still to be admitted;
`staged` holds a record whose `contains_key` check on the shared
`seen_hashes` map already returned `false` but whose `insert` has not yet
executed. -/
structure Worker where
  staged : Option FileMeta
  pending : List FileMeta

/-- The shared state of the concurrently executing batch tasks: the worker
pool, the shared `seen_hashes` registry, and the values of the shared
`results` map. -/
structure ConcState where
  workers : List Worker
  seen : List (String × String)
  results : List FileMeta

/-- One interleaved step of the dedup loops: worker `i` either observes its
head record's fingerprint as present (`contains_key` returns true and the
record is skipped), observes it as absent (the check passes and the insert
becomes pending), or performs the pending insert into `seen_hashes` and the
`results` map.  The check and the insert are separate steps because the
code issues them as two separate `DashMap` operations. -/
inductive DedupStep : ConcState → ConcState → Prop
  | checkDup (i : Nat) (fm : FileMeta) (rest : List FileMeta) (s : ConcState)
      (hw : s.workers[i]? = some ⟨none, fm :: rest⟩)
      (hs : (assocFind s.seen fm.hash).isSome = true) :
      DedupStep s { s with workers := s.workers.set i ⟨none, rest⟩ }
  | checkNew (i : Nat) (fm : FileMeta) (rest : List FileMeta) (s : ConcState)
      (hw : s.workers[i]? = some ⟨none, fm :: rest⟩)
      (hs : (assocFind s.seen fm.hash).isSome = false) :
      DedupStep s { s with workers := s.workers.set i ⟨some fm, rest⟩ }
  | insertRec (i : Nat) (fm : FileMeta) (rest : List FileMeta) (s : ConcState)
      (hw : s.workers[i]? = some ⟨some fm, rest⟩) :
      DedupStep s { workers := s.workers.set i ⟨none, rest⟩,
                    seen := assocInsert s.seen fm.hash fm.filename,
                    results := s.results ++ [fm] }

/-- Reachability under interleaved dedup steps. -/
def DedupSteps : ConcState → ConcState → Prop :=
  Relation.ReflTransGen DedupStep

/-- First record of the C1 race (fingerprint `"h"`). -/
def raceRecA : FileMeta :=
  { filename := "d/a.bin", folder := "d", size := 2048,
    mime := "application/octet-stream", hash := "h", filetype := "other" }

/-- Second record of the C1 race: a different path, the same fingerprint. -/
def raceRecB : FileMeta := { raceRecA with filename := "d/b.bin" }

/-- Claim C1 fails on the code: the registry admission is *not* a single
atomic check-and-insert.  Two workers each admitting a record with the same
fingerprint `"h"` can interleave as check, check, insert, insert; both
checks see the fingerprint absent, both records are admitted and stored,
and the run ends with two representatives for one fingerprint. -/
theorem dedup_race_two_representatives :
    DedupSteps
      ⟨[⟨none, [raceRecA]⟩, ⟨none, [raceRecB]⟩], [], []⟩
      ⟨[⟨none, []⟩, ⟨none, []⟩], [("h", "d/b.bin")], [raceRecA, raceRecB]⟩ ∧
    raceRecA.hash = raceRecB.hash ∧ raceRecA.filename ≠ raceRecB.filename := by
  refine ⟨?_, rfl, by decide⟩
  have s1 : DedupStep
      ⟨[⟨none, [raceRecA]⟩, ⟨none, [raceRecB]⟩], [], []⟩
      ⟨[⟨some raceRecA, []⟩, ⟨none, [raceRecB]⟩], [], []⟩ :=
    DedupStep.checkNew 0 raceRecA [] _ rfl rfl
  have s2 : DedupStep
      ⟨[⟨some raceRecA, []⟩, ⟨none, [raceRecB]⟩], [], []⟩
      ⟨[⟨some raceRecA, []⟩, ⟨some raceRecB, []⟩], [], []⟩ :=
    DedupStep.checkNew 1 raceRecB [] _ rfl rfl
  have s3 : DedupStep
      ⟨[⟨some raceRecA, []⟩, ⟨some raceRecB, []⟩], [], []⟩
      ⟨[⟨none, []⟩, ⟨some raceRecB, []⟩], [("h", "d/a.bin")], [raceRecA]⟩ :=
    DedupStep.insertRec 0 raceRecA [] _ rfl
  have s4 : DedupStep
      ⟨[⟨none, []⟩, ⟨some raceRecB, []⟩], [("h", "d/a.bin")], [raceRecA]⟩
      ⟨[⟨none, []⟩, ⟨none, []⟩], [("h", "d/b.bin")], [raceRecA, raceRecB]⟩ :=
    DedupStep.insertRec 1 raceRecB [] _ rfl
  exact Relation.ReflTransGen.head s1 (Relation.ReflTransGen.head s2
    (Relation.ReflTransGen.head s3 (Relation.ReflTransGen.head s4
      Relation.ReflTransGen.refl)))

/-- First record of the C2 race (fingerprint `"k"`). -/
def raceRecC : FileMeta :=
  { filename := "p/x.bin", folder := "p", size := 4096,
    mime := "application/octet-stream", hash := "k", filetype := "other" }

/-- Second record of the C2 race: a different path, the same fingerprint. -/
def raceRecD : FileMeta := { raceRecC with filename := "p/y.bin" }

/-- Claim C2 fails on the code: with N = 2 successfully fingerprinted files
carrying K = 1 distinct fingerprint, the check/check/insert/insert
interleaving of two concurrent batch tasks stores both records, and the
collected, sorted inventory has 2 records instead of exactly K = 1. -/
theorem dedup_exactness_race :
    DedupSteps
      ⟨[⟨none, [raceRecC]⟩, ⟨none, [raceRecD]⟩], [], []⟩
      ⟨[⟨none, []⟩, ⟨none, []⟩], [("k", "p/y.bin")], [raceRecC, raceRecD]⟩ ∧
    [raceRecC, raceRecD].map FileMeta.hash = ["k", "k"] ∧
    ([raceRecC, raceRecD].map FileMeta.hash).dedup = ["k"] ∧
    (collectResults [raceRecC, raceRecD]).length = 2 := by
  refine ⟨?_, rfl, by decide, ?_⟩
  · have s1 : DedupStep
        ⟨[⟨none, [raceRecC]⟩, ⟨none, [raceRecD]⟩], [], []⟩
        ⟨[⟨some raceRecC, []⟩, ⟨none, [raceRecD]⟩], [], []⟩ :=
      DedupStep.checkNew 0 raceRecC [] _ rfl rfl
    have s2 : DedupStep
        ⟨[⟨some raceRecC, []⟩, ⟨none, [raceRecD]⟩], [], []⟩
        ⟨[⟨some raceRecC, []⟩, ⟨some raceRecD, []⟩], [], []⟩ :=
      DedupStep.checkNew 1 raceRecD [] _ rfl rfl
    have s3 : DedupStep
        ⟨[⟨some raceRecC, []⟩, ⟨some raceRecD, []⟩], [], []⟩
        ⟨[⟨none, []⟩, ⟨some raceRecD, []⟩], [("k", "p/x.bin")], [raceRecC]⟩ :=
      DedupStep.insertRec 0 raceRecC [] _ rfl
    have s4 : DedupStep
        ⟨[⟨none, []⟩, ⟨some raceRecD, []⟩], [("k", "p/x.bin")], [raceRecC]⟩
        ⟨[⟨none, []⟩, ⟨none, []⟩], [("k", "p/y.bin")], [raceRecC, raceRecD]⟩ :=
      DedupStep.insertRec 1 raceRecD [] _ rfl
    exact Relation.ReflTransGen.head s1 (Relation.ReflTransGen.head s2
      (Relation.ReflTransGen.head s3 (Relation.ReflTransGen.head s4
        Relation.ReflTransGen.refl)))
  · unfold collectResults
    rw [(List.mergeSort_perm _ _).length_eq]
    rfl

end Biebie
